import Mathlib

/-!
Verification of the MYCIN-style certainty-factor expert system
(Sistem Pakar Diagnosa Malaria).  The repository holds two variants of the
inference core: `engine.py` (module-level `combine_cf` / `forward_chaining`)
and `app.py` (class `ExpertSystem`).  Both are embedded below, shallowly:
Python floats become rationals, Python dicts become insertion-ordered
association lists, and exceptions become `Option`.
-/

set_option maxRecDepth 4000

unseal Rat.add Rat.mul Rat.inv Rat.sub Rat.ofScientific

/-- Python dict from fact code to CF, as an insertion-ordered association list. -/
abbrev FDict : Type := List (String × ℚ)

/-- Dict lookup: first (and, under the dict invariant, only) binding of a key. -/
def lookupF : FDict → String → Option ℚ
  | [], _ => none
  | (k, v) :: rest, key => if k = key then some v else lookupF rest key

/-- Dict assignment `d[key] = v`: overwrite in place if present, else append. -/
def insertF : FDict → String → ℚ → FDict
  | [], key, v => [(key, v)]
  | (k, w) :: rest, key, v =>
    if k = key then (k, v) :: rest else (k, w) :: insertF rest key v

/-- A symptom record from the knowledge base: `{code, mb, md}`. -/
structure Symptom where
  code : String
  mb : ℚ
  md : ℚ
deriving DecidableEq

/-- A rule record from the knowledge base: `{id, if, then, cf, note}`
(`if` and `then` are Lean keywords, hence `ants` / `concl`). -/
structure Rule where
  id : String
  ants : List String
  concl : String
  cf : ℚ
  note : String
deriving DecidableEq

/-- The knowledge base structure `{symptoms: [...], rules: [...]}`. -/
structure KB where
  symptoms : List Symptom
  rules : List Rule
deriving DecidableEq

/-- engine.py `cf_symptom_from_mbmd`: base CF of a symptom is `mb - md`. -/
def cf_symptom_from_mbmd (s : Symptom) : ℚ := s.mb - s.md

/-- engine.py `combine_cf`: MYCIN combination, three branches partitioned by
sign (zero non-negative), with a zero-denominator guard in the mixed branch. -/
def combine_cf (cf1 cf2 : ℚ) : ℚ :=
  if 0 ≤ cf1 ∧ 0 ≤ cf2 then cf1 + cf2 * (1 - cf1)
  else if cf1 ≤ 0 ∧ cf2 ≤ 0 then cf1 + cf2 * (1 + cf1)
  else
    let denom := 1 - min |cf1| |cf2|
    if denom = 0 then 0 else (cf1 + cf2) / denom

/-- A user-supplied confidence value: either convertible by `float(...)` to a
number, or a value on which `float(...)` raises (modelled opaquely). -/
inductive ConfVal where
  | num (q : ℚ)
  | nonNum (s : String)
deriving DecidableEq

/-- `try: float(v) except: 1.0` from the seeding loop of engine.py. -/
def toFloatOr1 : ConfVal → ℚ
  | .num q => q
  | .nonNum _ => 1

/-- engine.py `symptom_map` + `base_cf`: dict comprehension keyed by symptom
code (later duplicates override earlier ones), then `mb - md`. -/
def symptomBase (kb : KB) (code : String) : Option ℚ :=
  ((kb.symptoms.filter (fun s => s.code == code)).getLast?).map cf_symptom_from_mbmd

/-- engine.py seeding loop: known symptom codes get `user_conf * base_cf`,
unknown codes get the (float-converted, defaulted) confidence directly. -/
def seedFacts (kb : KB) (input : List (String × ConfVal)) : FDict :=
  input.foldl
    (fun acc p =>
      let uc := toFloatOr1 p.2
      match symptomBase kb p.1 with
      | some b => insertF acc p.1 (uc * b)
      | none => insertF acc p.1 uc)
    []

/-- One trace entry of engine.py (`trace_item` dict). -/
structure TraceEntry where
  rule_id : String
  ants : List String
  antecedent_cfs : List ℚ
  cf_antecedent : ℚ
  rule_cf : ℚ
  rule_contribution : ℚ
  conclusion : String
  old_cf : ℚ
  new_cf : ℚ
  note : String
deriving DecidableEq

/-- The antecedent-collection loop of engine.py: walk the `if` list, breaking
at the first code absent from `cf_facts` (`missing = True`). -/
def getAntCfs (f : FDict) : List String → Option (List ℚ)
  | [] => some []
  | a :: rest =>
    match lookupF f a with
    | none => none
    | some v => (getAntCfs f rest).map (fun cs => v :: cs)

/-- Python `min` over a non-empty list. -/
def listMin (c : ℚ) (cs : List ℚ) : ℚ := cs.foldl min c

/-- Result of processing one rule inside a pass of engine.py:
updated fact store, updated memo, appended trace items, and whether it fired. -/
structure StepRes where
  facts : FDict
  memo : FDict
  fired : List TraceEntry
  changed : Bool
deriving DecidableEq

/-- The tail of the rule body of engine.py after the anti-oscillation guard:
contribution, combination with the current conclusion CF, change threshold,
commit. -/
def fireStep (f m : FDict) (r : Rule) (c : ℚ) (cs : List ℚ) : StepRes :=
  let cfa := listMin c cs
  let contrib := r.cf * cfa
  let old := (lookupF f r.concl).getD 0
  let newv := if (lookupF f r.concl).isSome then combine_cf old contrib else contrib
  if (1 : ℚ)/1000000 < |newv - old| then
    ⟨insertF f r.concl newv, insertF m r.id cfa,
     [⟨r.id, r.ants, c :: cs, cfa, r.cf, contrib, r.concl, old, newv, r.note⟩], true⟩
  else ⟨f, m, [], false⟩

/-- The body of `for rule in rules` in engine.py `forward_chaining`: skip on a
missing or empty antecedent list, skip when the memoised antecedent CF moved
by less than 1e-9 (`prev_cf is not None and abs(prev_cf - cf_antecedent) <
1e-9`), otherwise run the firing tail. -/
def stepCore (f m : FDict) (r : Rule) : StepRes :=
  match getAntCfs f r.ants with
  | none => ⟨f, m, [], false⟩
  | some [] => ⟨f, m, [], false⟩
  | some (c :: cs) =>
    match lookupF m r.id with
    | some prev =>
      if |prev - listMin c cs| < (1 : ℚ)/1000000000 then ⟨f, m, [], false⟩
      else fireStep f m r c cs
    | none => fireStep f m r c cs

/-- Mutable per-run state of engine.py: `cf_facts`, `applied_rules`, `fired_trace`. -/
structure EState where
  facts : FDict
  memo : FDict
  trace : List TraceEntry
deriving DecidableEq

/-- One rule step threaded through the pass state (trace appended, `changed` or-ed). -/
def stepRule (p : EState × Bool) (r : Rule) : EState × Bool :=
  let res := stepCore p.1.facts p.1.memo r
  (⟨res.facts, res.memo, p.1.trace ++ res.fired⟩, p.2 || res.changed)

/-- One full pass of the `while changed` loop: `changed = False`, then all rules. -/
def fcPass (kb : KB) (st : EState) : EState × Bool :=
  kb.rules.foldl stepRule (st, false)

/-- The `while changed` loop of engine.py, with explicit fuel (number of passes
allowed); `none` means the loop did not finish within `fuel` passes. -/
def fcLoop (kb : KB) : ℕ → EState → Option EState
  | 0, _ => none
  | n + 1, st =>
    let r := fcPass kb st
    if r.2 then fcLoop kb n r.1 else some r.1

/-- Python 3 `round` to an integer: round-half-to-even. -/
def rndHalfEven (x : ℚ) : ℤ :=
  let f := ⌊x⌋
  let r := x - (f : ℚ)
  if r < 1/2 then f
  else if 1/2 < r then f + 1
  else if f % 2 = 0 then f else f + 1

/-- Python `round(x, 4)`. -/
def round4 (x : ℚ) : ℚ := ((rndHalfEven (x * 10000) : ℤ) : ℚ) / 10000

/-- engine.py finalization of one value: `max(min(round(v, 4), 1.0), -1.0)`. -/
def clamp4 (v : ℚ) : ℚ := max (min (round4 v) 1) (-1)

/-- engine.py finalization loop over `cf_facts`. -/
def finalizeF (f : FDict) : FDict := f.map (fun p => (p.1, clamp4 p.2))

/-- The hard-coded `translation_map` of engine.py, as total `get(k, k)`. -/
def translation_map (k : String) : String :=
  if k = "Anemia_due_to_malaria" then "Anemia akibat malaria"
  else if k = "Respiratory_complication" then "Komplikasi pernapasan akibat malaria"
  else if k = "Malaria Tertiana" then "Malaria Tertiana"
  else if k = "Malaria Tropika" then "Malaria Tropika"
  else k

/-- engine.py line 184: `{translation_map.get(k, k): v for k, v in cf_facts.items()}`
(dict comprehension, so colliding target keys keep the first position, last value). -/
def remapDict (f : FDict) : FDict :=
  f.foldl (fun acc p => insertF acc (translation_map p.1) p.2) []

/-- State at entry of the `while` loop of engine.py. -/
def initState (kb : KB) (input : List (String × ConfVal)) : EState :=
  ⟨seedFacts kb input, [], []⟩

/-- engine.py `forward_chaining` (debug printing omitted): seed, iterate to a
fixed point (within `fuel` passes), clamp and round, remap labels. -/
def forward_chaining (kb : KB) (input : List (String × ConfVal)) (fuel : ℕ) :
    Option (FDict × List TraceEntry) :=
  (fcLoop kb fuel (initState kb input)).map
    (fun st => (remapDict (finalizeF st.facts), st.trace))

example : combine_cf (6/10) (4/10) = 76/100 := by decide
example : combine_cf (-(6/10)) (-(4/10)) = -(76/100) := by decide
example : combine_cf (6/10) (-(4/10)) = 1/3 := by decide
example : combine_cf 1 (-1) = 0 := by decide
example : round4 (1/3) = 3333/10000 := by decide
example : clamp4 (5/4) = 1 := by decide

namespace ExpertSystem

/-- app.py `ExpertSystem.combine_cf`: same MYCIN combination but with a strict
negative branch and no zero-denominator guard; `none` models ZeroDivisionError. -/
def combine_cf (cf1 cf2 : ℚ) : Option ℚ :=
  if 0 ≤ cf1 ∧ 0 ≤ cf2 then some (cf1 + cf2 * (1 - cf1))
  else if cf1 < 0 ∧ cf2 < 0 then some (cf1 + cf2 * (1 + cf1))
  else
    let denom := 1 - min |cf1| |cf2|
    if denom = 0 then none else some ((cf1 + cf2) / denom)

/-- app.py `get_mb_md`: first symptom with matching code, default `(1.0, 0.0)`. -/
def get_mb_md (kb : KB) (code : String) : ℚ × ℚ :=
  match kb.symptoms.find? (fun s => s.code == code) with
  | some s => (s.mb, s.md)
  | none => (1, 0)

/-- app.py `calculate_cf`: `user_cf * (mb - md)`. -/
def calculate_cf (kb : KB) (user_cf : ℚ) (code : String) : ℚ :=
  user_cf * ((get_mb_md kb code).1 - (get_mb_md kb code).2)

/-- One trace entry of app.py (`trace.append({...})`). -/
structure ATrace where
  rule_id : String
  ants : List String
  concl : String
  antecedent_cfs : List ℚ
  rule_cf : ℚ
  old_cf : ℚ
  new_cf : ℚ
  note : String
deriving DecidableEq

/-- Python `min` over a possibly-empty list; `none` models the ValueError
raised by `min([])`. -/
def listMin? : List ℚ → Option ℚ
  | [] => none
  | c :: cs => some (cs.foldl min c)

/-- The `for rule in ...` body of app.py `forward_chaining`, over a rule list;
`none` models an uncaught exception aborting the run. -/
def runRules : List Rule → FDict → List ATrace → Bool → Option (FDict × List ATrace × Bool)
  | [], f, tr, ch => some (f, tr, ch)
  | r :: rs, f, tr, ch =>
    if (lookupF f r.concl).isSome ∧ r.id ∈ tr.map (fun t => t.rule_id) then
      runRules rs f tr ch
    else if r.ants.all (fun a => (lookupF f a).isSome) then
      match listMin? (r.ants.map (fun a => (lookupF f a).getD 0)) with
      | none => none
      | some min_cf =>
        let contrib := r.cf * min_cf
        let old := (lookupF f r.concl).getD 0
        match (if (lookupF f r.concl).isSome then combine_cf old contrib else some contrib) with
        | none => none
        | some newv =>
          if (1 : ℚ)/1000000 < |newv - old| then
            runRules rs (insertF f r.concl newv)
              (tr ++ [⟨r.id, r.ants, r.concl, r.ants.map (fun a => (lookupF f a).getD 0),
                       r.cf, old, newv, r.note⟩])
              true
          else runRules rs f tr ch
    else runRules rs f tr ch

/-- The `while rules_fired` loop of app.py, with fuel. -/
def loopFC (kb : KB) : ℕ → FDict → List ATrace → Option (FDict × List ATrace)
  | 0, _, _ => none
  | n + 1, f, tr =>
    match runRules kb.rules f tr false with
    | none => none
    | some res => if res.2.2 then loopFC kb n res.1 res.2.1 else some (res.1, res.2.1)

/-- app.py seeding loop: `cf_facts[code] = calculate_cf(user_cf, code)`. -/
def appSeed (kb : KB) (facts : List (String × ℚ)) : FDict :=
  facts.foldl (fun acc p => insertF acc p.1 (calculate_cf kb p.2 p.1)) []

/-- app.py `ExpertSystem.forward_chaining`. -/
def forward_chaining (kb : KB) (facts : List (String × ℚ)) (fuel : ℕ) :
    Option (FDict × List ATrace) :=
  loopFC kb fuel (appSeed kb facts) []

end ExpertSystem

/-- The spec's end-to-end example: symptom `G02` with `mb=1, md=0`, rule
`R1 : G02 -> D1` with strength `0.8`. -/
def kbG : KB := ⟨[⟨"G02", 1, 0⟩], [⟨"R1", ["G02"], "D1", 8/10, ""⟩]⟩

/-- A KB holding a single rule with an empty antecedent list. -/
def kbEmptyAnt : KB := ⟨[], [⟨"R0", [], "D", 1, ""⟩]⟩

/-- Two mutually-feeding rules whose exact CF dynamics have period two, so the
`while changed` loop of engine.py never stabilizes on `loopInput`. -/
def kbLoop : KB := ⟨[], [⟨"R", ["A"], "X", -(3/8), ""⟩, ⟨"S", ["X"], "A", -8, ""⟩]⟩

/-- The input facts driving `kbLoop` into its two-cycle (both are raw
non-symptom facts, allowed at any confidence). -/
def loopInput : List (String × ConfVal) := [("A", .num 2), ("X", .num (1/2))]

/-- Fact store seeded from `loopInput`. -/
def loopF0 : FDict := [("A", 2), ("X", 1/2)]

/-- Fact store after an odd number of passes on `kbLoop`. -/
def loopF1 : FDict := [("A", -2), ("X", -(1/2))]

/-- Memo after passes 1, 3, 5, ... on `kbLoop`. -/
def loopM1 : FDict := [("R", 2), ("S", -(1/2))]

/-- Memo after passes 2, 4, 6, ... on `kbLoop`. -/
def loopM2 : FDict := [("R", -2), ("S", 1/2)]

example : ExpertSystem.combine_cf 1 (-1) = none := by decide
example : ExpertSystem.forward_chaining kbEmptyAnt [] 1 = none := by decide
example : seedFacts kbLoop loopInput = loopF0 := by decide
example : (fcPass kbLoop ⟨loopF0, [], []⟩).1.facts = loopF1 := by decide
example : (fcPass kbLoop ⟨loopF0, [], []⟩).1.memo = loopM1 := by decide
example : (fcPass kbLoop ⟨loopF0, [], []⟩).2 = true := by decide
example : (fcPass kbLoop ⟨loopF1, loopM1, []⟩).1.facts = loopF0 := by decide
example : (fcPass kbLoop ⟨loopF1, loopM1, []⟩).1.memo = loopM2 := by decide
example : (fcPass kbLoop ⟨loopF1, loopM1, []⟩).2 = true := by decide
example : (fcPass kbLoop ⟨loopF0, loopM2, []⟩).1.facts = loopF1 := by decide
example : (fcPass kbLoop ⟨loopF0, loopM2, []⟩).1.memo = loopM1 := by decide
example : (fcPass kbLoop ⟨loopF0, loopM2, []⟩).2 = true := by decide

/-- Replacing every non-convertible confidence by `num 1`, the substitution
that engine.py's `except` branch performs. -/
def sanitizeInput (input : List (String × ConfVal)) : List (String × ConfVal) :=
  input.map (fun p => (p.1, ConfVal.num (toFloatOr1 p.2)))

theorem lookupF_insertF_self (f : FDict) (k : String) (v : ℚ) :
    lookupF (insertF f k v) k = some v := by
  induction f with
  | nil => simp [insertF, lookupF]
  | cons hd tl ih =>
    obtain ⟨k1, w⟩ := hd
    by_cases h : k1 = k
    · simp [insertF, h, lookupF]
    · simp [insertF, h, lookupF, ih]

theorem lookupF_insertF_ne (f : FDict) (k key : String) (v : ℚ) (h : key ≠ k) :
    lookupF (insertF f k v) key = lookupF f key := by
  induction f with
  | nil =>
    simp only [insertF, lookupF]
    rw [if_neg (fun hh : k = key => h hh.symm)]
  | cons hd tl ih =>
    obtain ⟨k1, w⟩ := hd
    by_cases h1 : k1 = k
    · subst h1
      simp only [insertF, if_pos rfl, lookupF]
      rw [if_neg (fun hh : k1 = key => h hh.symm), if_neg (fun hh : k1 = key => h hh.symm)]
    · by_cases h2 : k1 = key
      · simp [insertF, h1, lookupF, h2, h]
      · simp [insertF, h1, lookupF, h2, ih]

theorem isSome_lookupF_insertF (f : FDict) (k key : String) (v : ℚ)
    (h : (lookupF f key).isSome) : (lookupF (insertF f k v) key).isSome := by
  by_cases hk : key = k
  · subst hk; simp [lookupF_insertF_self]
  · rwa [lookupF_insertF_ne f k key v hk]

theorem mem_insertF (f : FDict) (k : String) (v : ℚ) (p : String × ℚ)
    (h : p ∈ insertF f k v) : p ∈ f ∨ p.2 = v := by
  induction f with
  | nil =>
    simp [insertF] at h
    exact Or.inr (by simp [h])
  | cons hd tl ih =>
    obtain ⟨k1, w⟩ := hd
    by_cases h1 : k1 = k
    · simp [insertF, h1] at h
      rcases h with h | h
      · exact Or.inr (by rw [h])
      · exact Or.inl (List.mem_cons_of_mem _ h)
    · simp only [insertF, if_neg h1, List.mem_cons] at h
      rcases h with h | h
      · exact Or.inl (by simp [h])
      · rcases ih h with h2 | h2
        · exact Or.inl (List.mem_cons_of_mem _ h2)
        · exact Or.inr h2

theorem mem_remapDict (l acc : FDict) (p : String × ℚ)
    (h : p ∈ l.foldl (fun acc2 q => insertF acc2 (translation_map q.1) q.2) acc) :
    p ∈ acc ∨ ∃ q ∈ l, p.2 = q.2 := by
  induction l generalizing acc with
  | nil => exact Or.inl h
  | cons q l ih =>
    rcases ih _ h with h2 | h2
    · rcases mem_insertF _ _ _ _ h2 with h3 | h3
      · exact Or.inl h3
      · exact Or.inr ⟨q, List.mem_cons_self _ _, h3⟩
    · obtain ⟨q1, hq1, he⟩ := h2
      exact Or.inr ⟨q1, List.mem_cons_of_mem _ hq1, he⟩

theorem rndHalfEven_intCast (n : ℤ) : rndHalfEven (n : ℚ) = n := by
  unfold rndHalfEven
  simp only [Int.floor_intCast, sub_self]
  norm_num

theorem round4_int_div10000 (n : ℤ) : round4 ((n : ℚ) / 10000) = (n : ℚ) / 10000 := by
  unfold round4
  rw [div_mul_cancel₀ _ (by norm_num : (10000 : ℚ) ≠ 0), rndHalfEven_intCast]

theorem clamp4_eq_int_div (v : ℚ) : ∃ n : ℤ, clamp4 v = (n : ℚ) / 10000 := by
  unfold clamp4 round4
  rcases le_total (((rndHalfEven (v * 10000) : ℤ) : ℚ) / 10000) 1 with h | h
  · rw [min_eq_left h]
    rcases le_total (-1 : ℚ) (((rndHalfEven (v * 10000) : ℤ) : ℚ) / 10000) with h2 | h2
    · rw [max_eq_left h2]
      exact ⟨rndHalfEven (v * 10000), rfl⟩
    · rw [max_eq_right h2]
      exact ⟨-10000, by norm_num⟩
  · rw [min_eq_right h]
    rw [max_eq_left (by norm_num : (-1 : ℚ) ≤ 1)]
    exact ⟨10000, by norm_num⟩

theorem clamp4_bounds (v : ℚ) : -1 ≤ clamp4 v ∧ clamp4 v ≤ 1 := by
  unfold clamp4
  exact ⟨le_max_right _ _, max_le (min_le_right _ _) (by norm_num)⟩

theorem round4_clamp4 (v : ℚ) : round4 (clamp4 v) = clamp4 v := by
  obtain ⟨n, hn⟩ := clamp4_eq_int_div v
  rw [hn, round4_int_div10000]

/-- C1: `combine_cf` implements the three-branch MYCIN combination partitioned
by sign with zero treated as non-negative: both non-negative gives
`a + b*(1-a)`, both non-positive (first branch not matched) gives
`a + b*(1+a)`, mixed sign gives `(a+b)/(1 - min(|a|,|b|))`; in particular
`combine_cf 0.6 0.4 = 0.76`, `combine_cf (-0.6) (-0.4) = -0.76` and
`combine_cf 0.6 (-0.4) = 0.2/0.6`. -/
theorem combine_cf_three_branches :
    (∀ a b : ℚ, 0 ≤ a → 0 ≤ b → combine_cf a b = a + b * (1 - a)) ∧
    (∀ a b : ℚ, ¬(0 ≤ a ∧ 0 ≤ b) → a ≤ 0 → b ≤ 0 → combine_cf a b = a + b * (1 + a)) ∧
    (∀ a b : ℚ, ¬(0 ≤ a ∧ 0 ≤ b) → ¬(a ≤ 0 ∧ b ≤ 0) →
        combine_cf a b = (a + b) / (1 - min |a| |b|)) ∧
    combine_cf (6/10) (4/10) = 76/100 ∧
    combine_cf (-(6/10)) (-(4/10)) = -(76/100) ∧
    combine_cf (6/10) (-(4/10)) = (2/10) / (6/10) := by
  refine ⟨?_, ?_, ?_, by decide, by decide, by decide⟩
  · intro a b ha hb
    simp [combine_cf, ha, hb]
  · intro a b h ha hb
    simp [combine_cf, h, ha, hb]
  · intro a b h1 h2
    simp only [combine_cf, if_neg h1, if_neg h2]
    split_ifs with hd
    · rw [hd, div_zero]
    · rfl

/-- C1 witness: the first branch at `(0.6, 0.4)`. -/
theorem combine_cf_three_branches_witness :
    combine_cf (6/10) (4/10) = 6/10 + 4/10 * (1 - 6/10) :=
  combine_cf_three_branches.1 (6/10) (4/10) (by norm_num) (by norm_num)

/-- C2 counterexample: the denominator of the mixed branch is also 0 at
`(2, -1)` where `|a| = 2 ≠ 1`, so "occurs only when |a|=|b|=1" is false; and
app.py's `ExpertSystem.combine_cf`, also cited by the claim, has no guard and
raises ZeroDivisionError (modelled as `none`) at `(1.0, -1.0)`. -/
theorem combine_cf_guard_not_only_at_abs_one :
    ¬(0 ≤ (2 : ℚ) ∧ 0 ≤ (-1 : ℚ)) ∧ ¬((2 : ℚ) ≤ 0 ∧ (-1 : ℚ) ≤ 0) ∧
    1 - min |(2 : ℚ)| |(-1 : ℚ)| = 0 ∧ ¬(|(2 : ℚ)| = 1) ∧
    combine_cf 2 (-1) = 0 ∧ ExpertSystem.combine_cf 1 (-1) = none := by decide

/-- C2 (amended): in engine.py's `combine_cf`, whenever the mixed-sign branch
is reached with denominator `1 - min(|a|,|b|)` exactly 0 the result is 0.0 and
no exception is raised; in particular `combine_cf 1 (-1) = 0`.  app.py's
`ExpertSystem.combine_cf` lacks the guard and raises at `(1.0, -1.0)`. -/
theorem combine_cf_zero_denominator_guard :
    (∀ a b : ℚ, ¬(0 ≤ a ∧ 0 ≤ b) → ¬(a ≤ 0 ∧ b ≤ 0) → 1 - min |a| |b| = 0 →
        combine_cf a b = 0) ∧
    combine_cf 1 (-1) = 0 ∧ ExpertSystem.combine_cf 1 (-1) = none := by
  refine ⟨?_, by decide, by decide⟩
  intro a b h1 h2 hd
  simp [combine_cf, h1, h2, hd]

/-- C2 witness: the guard branch at `(1, -1)`. -/
theorem combine_cf_zero_denominator_guard_witness : combine_cf 1 (-1) = 0 :=
  combine_cf_zero_denominator_guard.1 1 (-1) (by norm_num) (by norm_num) (by norm_num)

/-- C10: `combine_cf` is commutative: every branch, its selection condition and
the zero-denominator guard are symmetric in the two arguments. -/
theorem combine_cf_commutative : ∀ a b : ℚ, combine_cf a b = combine_cf b a := by
  intro a b
  unfold combine_cf
  rw [show min |b| |a| = min |a| |b| from min_comm _ _,
      show b + a = a + b from add_comm b a]
  split_ifs <;> first | rfl | ring1 | tauto

/-- C6 (amended): in engine.py a rule with an empty antecedent list never
fires: processing it is the identity on the whole pass state (no fact update,
no memo update, no trace entry, `changed` untouched), in any pass of any run.
In app.py, by contrast, an empty-antecedent rule raises ValueError
(see `empty_antecedent_raises_in_app`). -/
theorem empty_antecedent_never_fires_engine :
    ∀ (p : EState × Bool) (r : Rule), r.ants = [] → stepRule p r = p := by
  intro p r h
  simp [stepRule, stepCore, h, getAntCfs]

/-- C6 witness: the empty-antecedent rule of `kbEmptyAnt` leaves a concrete
state unchanged. -/
theorem empty_antecedent_never_fires_engine_witness :
    stepRule (⟨[], [], []⟩, false) ⟨"R0", [], "D", 1, ""⟩ = (⟨[], [], []⟩, false) :=
  empty_antecedent_never_fires_engine (⟨[], [], []⟩, false) ⟨"R0", [], "D", 1, ""⟩ rfl

/-- C6 counterexample: in app.py's `ExpertSystem.forward_chaining` an
empty-antecedent rule is not skipped; `min([])` raises ValueError (modelled as
`none`), so the claim's "skipped without error" fails for the cited app.py
lines. -/
theorem empty_antecedent_raises_in_app :
    ExpertSystem.forward_chaining kbEmptyAnt [] 1 = none := by decide

/-- C7 (amended): in engine.py, a non-numeric confidence value never aborts
inference: seeding substitutes 1.0 for it, so running `forward_chaining` on
any input is the same as running it with every non-convertible value replaced
by 1.0 (and the embedded engine is total apart from the explicit pass fuel).
app.py's seeding loop instead lets the TypeError propagate (see
`app_nonnumeric_confidence_raises`). -/
theorem nonnumeric_confidence_replaced_by_one :
    (∀ s, toFloatOr1 (ConfVal.nonNum s) = 1) ∧
    ∀ (kb : KB) (input : List (String × ConfVal)) (fuel : ℕ),
      forward_chaining kb (sanitizeInput input) fuel = forward_chaining kb input fuel := by
  refine ⟨fun s => rfl, ?_⟩
  intro kb input fuel
  have hseed : seedFacts kb (sanitizeInput input) = seedFacts kb input := by
    unfold seedFacts sanitizeInput
    rw [List.foldl_map]
    rfl
  unfold forward_chaining initState
  rw [hseed]

theorem lookupF_append_of_none (l1 l2 : FDict) (k : String)
    (h : lookupF l1 k = none) : lookupF (l1 ++ l2) k = lookupF l2 k := by
  induction l1 with
  | nil => rfl
  | cons hd tl ih =>
    obtain ⟨k1, w⟩ := hd
    by_cases h1 : k1 = k
    · simp [lookupF, h1] at h
    · simp only [lookupF, if_neg h1] at h
      simp [lookupF, h1, ih h]

theorem insertF_of_none (acc : FDict) (k : String) (v : ℚ)
    (h : lookupF acc k = none) : insertF acc k v = acc ++ [(k, v)] := by
  induction acc with
  | nil => rfl
  | cons hd tl ih =>
    obtain ⟨k1, w⟩ := hd
    by_cases h1 : k1 = k
    · simp [lookupF, h1] at h
    · simp only [lookupF, if_neg h1] at h
      simp [insertF, h1, ih h]

theorem remapDict_of_nodup (l : FDict) :
    ∀ acc : FDict, (∀ p ∈ l, lookupF acc (translation_map p.1) = none) →
    (l.map (fun p => translation_map p.1)).Nodup →
    l.foldl (fun a q => insertF a (translation_map q.1) q.2) acc
      = acc ++ l.map (fun p => (translation_map p.1, p.2)) := by
  induction l with
  | nil => intro acc _ _; simp
  | cons q l ih =>
    intro acc hacc hnd
    simp only [List.map_cons, List.nodup_cons] at hnd
    have hq : lookupF acc (translation_map q.1) = none :=
      hacc q (List.mem_cons_self _ _)
    simp only [List.foldl_cons]
    rw [insertF_of_none acc _ _ hq]
    rw [ih (acc ++ [(translation_map q.1, q.2)]) ?_ hnd.2]
    · simp
    · intro p hp
      rw [lookupF_append_of_none _ _ _ (hacc p (List.mem_cons_of_mem _ hp))]
      have hne : ¬translation_map q.1 = translation_map p.1 := by
        intro he
        exact hnd.1 (he ▸ List.mem_map_of_mem (fun r => translation_map r.1) hp)
      simp [lookupF, hne]

/-- C3 (amended): in engine.py's `forward_chaining`, every value in the
returned fact mapping lies in `[-1, 1]` and equals its own rounding to 4
decimal places, for every knowledge base and every input.  app.py's
`ExpertSystem.forward_chaining` performs no such finalization (see
`app_final_facts_not_clamped_cex`). -/
theorem final_facts_clamped_rounded :
    ∀ (kb : KB) (input : List (String × ConfVal)) (fuel : ℕ) (ff : FDict)
      (tr : List TraceEntry),
      forward_chaining kb input fuel = some (ff, tr) →
      ∀ p ∈ ff, -1 ≤ p.2 ∧ p.2 ≤ 1 ∧ round4 p.2 = p.2 := by
  intro kb input fuel ff tr h p hp
  unfold forward_chaining at h
  cases hst : fcLoop kb fuel (initState kb input) with
  | none => rw [hst] at h; simp at h
  | some st =>
    rw [hst] at h
    have h2 : (remapDict (finalizeF st.facts), st.trace) = (ff, tr) := by
      simpa using h
    have hff : remapDict (finalizeF st.facts) = ff := congrArg Prod.fst h2
    rw [← hff] at hp
    rcases mem_remapDict (finalizeF st.facts) [] p hp with h0 | ⟨q, hq, he⟩
    · exact absurd h0 (List.not_mem_nil p)
    · unfold finalizeF at hq
      obtain ⟨w, _, hwq⟩ := List.mem_map.mp hq
      have hval : p.2 = clamp4 w.2 := by rw [he, ← hwq]
      rw [hval]
      exact ⟨(clamp4_bounds w.2).1, (clamp4_bounds w.2).2, round4_clamp4 w.2⟩

/-- C3 witness: a run with the single raw fact `("A", 0.5)`. -/
theorem final_facts_clamped_rounded_witness :
    -1 ≤ (1/2 : ℚ) ∧ (1/2 : ℚ) ≤ 1 ∧ round4 (1/2 : ℚ) = 1/2 :=
  final_facts_clamped_rounded ⟨[], []⟩ [("A", ConfVal.num (1/2))] 1
    [("A", 1/2)] [] (by decide) ("A", 1/2) (by decide)

/-- C8 counterexample: engine.py's `forward_chaining` applies the hard-coded
label remapping itself — the run returns the display label
"Anemia akibat malaria" as key, and the stable internal code
"Anemia_due_to_malaria" is absent from the returned mapping. -/
theorem remap_applied_inside_engine_cex :
    forward_chaining ⟨[], []⟩ [("Anemia_due_to_malaria", ConfVal.num 1)] 1
      = some ([("Anemia akibat malaria", 1)], []) ∧
    lookupF [("Anemia akibat malaria", (1 : ℚ))] ("Anemia_due_to_malaria") = none := by
  decide

/-- C8 (amended): label remapping is invoked inside `forward_chaining` itself,
strictly after clamping/rounding: the returned mapping is the dict
comprehension over the finalized store translating each key through the
hard-coded `translation_map`; when the translated keys do not collide this
changes only keys — every value passes through unchanged and codes without a
translation entry are left as-is (`translation_map` is the identity there). -/
theorem remap_after_finalization_keys_only :
    (∀ (kb : KB) (input : List (String × ConfVal)) (fuel : ℕ) (st : EState),
        fcLoop kb fuel (initState kb input) = some st →
        forward_chaining kb input fuel
          = some (remapDict (finalizeF st.facts), st.trace)) ∧
    (∀ l : FDict, (l.map (fun p => translation_map p.1)).Nodup →
        remapDict l = l.map (fun p => (translation_map p.1, p.2))) := by
  constructor
  · intro kb input fuel st h
    unfold forward_chaining
    rw [h]
    rfl
  · intro l hn
    have h := remapDict_of_nodup l [] (fun p _ => rfl) hn
    simpa [remapDict] using h

/-- C8 witness: the remap equation on a one-fact run, and key preservation on
an untranslated code. -/
theorem remap_after_finalization_keys_only_witness :
    forward_chaining ⟨[], []⟩ [("G01", ConfVal.num (1/2))] 1
      = some (remapDict (finalizeF [("G01", 1/2)]), []) ∧
    remapDict [("G01", (1/2 : ℚ))] = [("G01", (1/2 : ℚ))] := by
  constructor
  · exact remap_after_finalization_keys_only.1 ⟨[], []⟩ [("G01", ConfVal.num (1/2))] 1
      ⟨[("G01", 1/2)], [], []⟩ (by decide)
  · rw [remap_after_finalization_keys_only.2 [("G01", (1/2 : ℚ))] (by decide)]
    decide

theorem foldl_stepRule_trace (rs : List Rule) :
    ∀ (f m : FDict) (t : List TraceEntry) (b : Bool),
      List.foldl stepRule (⟨f, m, t⟩, b) rs
        = (⟨(List.foldl stepRule (⟨f, m, []⟩, b) rs).1.facts,
            (List.foldl stepRule (⟨f, m, []⟩, b) rs).1.memo,
            t ++ (List.foldl stepRule (⟨f, m, []⟩, b) rs).1.trace⟩,
           (List.foldl stepRule (⟨f, m, []⟩, b) rs).2) := by
  induction rs with
  | nil => intro f m t b; simp
  | cons r rs ih =>
    intro f m t b
    have hstep : ∀ (t2 : List TraceEntry),
        stepRule (⟨f, m, t2⟩, b) r
          = (⟨(stepCore f m r).facts, (stepCore f m r).memo,
              t2 ++ (stepCore f m r).fired⟩, b || (stepCore f m r).changed) :=
      fun t2 => rfl
    simp only [List.foldl_cons]
    rw [hstep t, hstep []]
    rw [ih (stepCore f m r).facts (stepCore f m r).memo
        (t ++ (stepCore f m r).fired) (b || (stepCore f m r).changed)]
    rw [ih (stepCore f m r).facts (stepCore f m r).memo
        ([] ++ (stepCore f m r).fired) (b || (stepCore f m r).changed)]
    simp [List.append_assoc]

theorem fcPass_trace_shift (kb : KB) (f m : FDict) (t : List TraceEntry) :
    fcPass kb ⟨f, m, t⟩
      = (⟨(fcPass kb ⟨f, m, []⟩).1.facts, (fcPass kb ⟨f, m, []⟩).1.memo,
          t ++ (fcPass kb ⟨f, m, []⟩).1.trace⟩, (fcPass kb ⟨f, m, []⟩).2) :=
  foldl_stepRule_trace kb.rules f m t false

/-- Trace entries appended by a pass entered with facts `loopF0` (both rules fire). -/
def trA : List TraceEntry :=
  [⟨"R", ["A"], [2], 2, -(3/8), -(3/4), "X", 1/2, -(1/2), ""⟩,
   ⟨"S", ["X"], [-(1/2)], -(1/2), -8, 4, "A", 2, -2, ""⟩]

/-- Trace entries appended by a pass entered with facts `loopF1` (both rules fire). -/
def trB : List TraceEntry :=
  [⟨"R", ["A"], [-2], -2, -(3/8), 3/4, "X", -(1/2), 1/2, ""⟩,
   ⟨"S", ["X"], [1/2], 1/2, -8, -4, "A", -2, 2, ""⟩]

theorem passA_eq : fcPass kbLoop ⟨loopF0, [], []⟩ = (⟨loopF1, loopM1, trA⟩, true) := by
  decide

theorem passB_eq : fcPass kbLoop ⟨loopF1, loopM1, []⟩ = (⟨loopF0, loopM2, trB⟩, true) := by
  decide

theorem passC_eq : fcPass kbLoop ⟨loopF0, loopM2, []⟩ = (⟨loopF1, loopM1, trA⟩, true) := by
  decide

theorem fcLoop_kbLoop_cycle :
    ∀ n : ℕ, (∀ t, fcLoop kbLoop n ⟨loopF1, loopM1, t⟩ = none) ∧
             (∀ t, fcLoop kbLoop n ⟨loopF0, loopM2, t⟩ = none) := by
  intro n
  induction n with
  | zero => exact ⟨fun _ => rfl, fun _ => rfl⟩
  | succ n ih =>
    constructor
    · intro t
      show (if (fcPass kbLoop ⟨loopF1, loopM1, t⟩).2 then
              fcLoop kbLoop n (fcPass kbLoop ⟨loopF1, loopM1, t⟩).1
            else some (fcPass kbLoop ⟨loopF1, loopM1, t⟩).1) = none
      rw [fcPass_trace_shift, passB_eq]
      exact ih.2 (t ++ trB)
    · intro t
      show (if (fcPass kbLoop ⟨loopF0, loopM2, t⟩).2 then
              fcLoop kbLoop n (fcPass kbLoop ⟨loopF0, loopM2, t⟩).1
            else some (fcPass kbLoop ⟨loopF0, loopM2, t⟩).1) = none
      rw [fcPass_trace_shift, passC_eq]
      exact ih.1 (t ++ trA)

theorem fcLoop_kbLoop_none :
    ∀ n, fcLoop kbLoop n (initState kbLoop loopInput) = none := by
  intro n
  have hinit : initState kbLoop loopInput = ⟨loopF0, [], []⟩ := by decide
  rw [hinit]
  cases n with
  | zero => rfl
  | succ n =>
    show (if (fcPass kbLoop ⟨loopF0, [], []⟩).2 then
            fcLoop kbLoop n (fcPass kbLoop ⟨loopF0, [], []⟩).1
          else some (fcPass kbLoop ⟨loopF0, [], []⟩).1) = none
    rw [passA_eq]
    exact (fcLoop_kbLoop_cycle n).1 trA

/-- C5: the termination guarantee fails on the code.  On the finite knowledge
base `kbLoop` (two rules, strengths -3/8 and -8) with finite input facts
`loopInput` (`A = 2`, `X = 0.5`), engine.py's `forward_chaining` never
returns: every pass fires both rules with an antecedent CF that moved by 4 or
1 (far above the 1e-9 guard) and commits changes of magnitude 1 or 4 (far
above the 1e-6 threshold), and the (facts, memo) state has exact period two —
so the `while changed` loop runs forever, whatever fuel is allowed.  Every
number involved is a small dyadic rational, so binary64 evaluates the same
cycle exactly and the Python program loops forever as well. -/
theorem forward_chaining_nonterminating_on_kbLoop :
    ¬ ∃ (fuel : ℕ) (res : FDict × List TraceEntry),
        forward_chaining kbLoop loopInput fuel = some res := by
  rintro ⟨fuel, res, h⟩
  unfold forward_chaining at h
  rw [fcLoop_kbLoop_none fuel] at h
  simp at h

/-- The trace entries recorded for rule id `rid`, in firing order. -/
def traceOf (rid : String) (tr : List TraceEntry) : List TraceEntry :=
  tr.filter (fun t => t.rule_id == rid)

/-- Invariant: `applied_rules` holds, per rule id, exactly the antecedent CF
of the last trace entry of that id. -/
def MemoMatches (st : EState) : Prop :=
  ∀ rid : String,
    lookupF st.memo rid = ((traceOf rid st.trace).getLast?).map (fun t => t.cf_antecedent)

/-- Invariant: successive firings of one rule id have antecedent CFs at least
1e-9 apart. -/
def ChainSep (st : EState) : Prop :=
  ∀ rid : String,
    List.Chain' (fun t1 t2 => (1 : ℚ)/1000000000 ≤ |t1.cf_antecedent - t2.cf_antecedent|)
      (traceOf rid st.trace)

theorem traceOf_append_hit (rid : String) (tr : List TraceEntry) (e : TraceEntry)
    (h : e.rule_id = rid) : traceOf rid (tr ++ [e]) = traceOf rid tr ++ [e] := by
  simp [traceOf, List.filter_append, h]

theorem traceOf_append_miss (rid : String) (tr : List TraceEntry) (e : TraceEntry)
    (h : ¬e.rule_id = rid) : traceOf rid (tr ++ [e]) = traceOf rid tr := by
  simp [traceOf, List.filter_append, h]

theorem stepCore_cases (f m : FDict) (r : Rule) :
    stepCore f m r = ⟨f, m, [], false⟩ ∨
    ∃ (c newv : ℚ) (cs : List ℚ),
      (lookupF m r.id = none ∨
        ∃ prev, lookupF m r.id = some prev ∧ (1 : ℚ)/1000000000 ≤ |prev - listMin c cs|) ∧
      stepCore f m r
        = ⟨insertF f r.concl newv, insertF m r.id (listMin c cs),
           [⟨r.id, r.ants, c :: cs, listMin c cs, r.cf, r.cf * listMin c cs, r.concl,
             (lookupF f r.concl).getD 0, newv, r.note⟩], true⟩ := by
  rcases hga : getAntCfs f r.ants with _ | cl
  · left; simp [stepCore, hga]
  · rcases cl with _ | ⟨c, cs⟩
    · left; simp [stepCore, hga]
    · have hfire : fireStep f m r c cs = ⟨f, m, [], false⟩ ∨
          ∃ newv, fireStep f m r c cs
            = ⟨insertF f r.concl newv, insertF m r.id (listMin c cs),
               [⟨r.id, r.ants, c :: cs, listMin c cs, r.cf, r.cf * listMin c cs, r.concl,
                 (lookupF f r.concl).getD 0, newv, r.note⟩], true⟩ := by
        simp only [fireStep]
        split_ifs <;> first | (left; rfl) | (right; exact ⟨_, rfl⟩)
      rcases hm : lookupF m r.id with _ | prev
      · have hsc : stepCore f m r = fireStep f m r c cs := by
          simp only [stepCore, hga, hm]
        rcases hfire with hf | ⟨newv, hf⟩
        · left; rw [hsc, hf]
        · right; exact ⟨c, newv, cs, Or.inl rfl, by rw [hsc, hf]⟩
      · by_cases hsk : |prev - listMin c cs| < (1 : ℚ)/1000000000
        · left
          simp only [stepCore, hga, hm]
          rw [if_pos hsk]
        · have hsc : stepCore f m r = fireStep f m r c cs := by
            simp only [stepCore, hga, hm]
            rw [if_neg hsk]
          rcases hfire with hf | ⟨newv, hf⟩
          · left; rw [hsc, hf]
          · right; exact ⟨c, newv, cs, Or.inr ⟨prev, rfl, not_lt.mp hsk⟩, by rw [hsc, hf]⟩

theorem stepRule_invariant (p : EState × Bool) (r : Rule)
    (h1 : MemoMatches p.1) (h2 : ChainSep p.1) :
    MemoMatches (stepRule p r).1 ∧ ChainSep (stepRule p r).1 := by
  rcases stepCore_cases p.1.facts p.1.memo r with hc | ⟨c, newv, cs, hguard, hc⟩
  · have hp : (stepRule p r).1 = p.1 := by
      simp [stepRule, hc]
    rw [hp]
    exact ⟨h1, h2⟩
  · have hp : (stepRule p r).1
        = ⟨insertF p.1.facts r.concl newv, insertF p.1.memo r.id (listMin c cs),
           p.1.trace ++
             [⟨r.id, r.ants, c :: cs, listMin c cs, r.cf, r.cf * listMin c cs, r.concl,
               (lookupF p.1.facts r.concl).getD 0, newv, r.note⟩]⟩ := by
      simp [stepRule, hc]
    rw [hp]
    constructor
    · intro rid
      by_cases hr : r.id = rid
      · subst hr
        show lookupF (insertF p.1.memo r.id (listMin c cs)) r.id = _
        rw [lookupF_insertF_self, traceOf_append_hit r.id p.1.trace _ rfl,
            List.getLast?_concat]
        rfl
      · show lookupF (insertF p.1.memo r.id (listMin c cs)) rid = _
        rw [lookupF_insertF_ne _ _ _ _ (fun hh => hr hh.symm),
            traceOf_append_miss rid p.1.trace _ hr]
        exact h1 rid
    · intro rid
      by_cases hr : r.id = rid
      · subst hr
        show List.Chain' _ (traceOf r.id (p.1.trace ++ _))
        rw [traceOf_append_hit r.id p.1.trace _ rfl]
        rw [List.chain'_append]
        refine ⟨h2 r.id, List.chain'_singleton _, ?_⟩
        intro x hx y hy
        simp only [List.head?_cons, Option.mem_def, Option.some.injEq] at hy
        subst hy
        rcases hguard with hnone | ⟨prev, hprev, hsep⟩
        · rw [h1 r.id] at hnone
          rcases hlast : (traceOf r.id p.1.trace).getLast? with _ | z
          · rw [hlast] at hx
            simp at hx
          · rw [hlast] at hnone
            simp at hnone
        · rw [h1 r.id] at hprev
          rcases hlast : (traceOf r.id p.1.trace).getLast? with _ | z
          · rw [hlast] at hprev
            simp at hprev
          · rw [hlast] at hx hprev
            simp only [Option.mem_def, Option.some.injEq] at hx
            obtain rfl := hx
            simp only [Option.map_some', Option.some.injEq] at hprev
            exact hprev.symm ▸ hsep
      · show List.Chain' _ (traceOf rid (p.1.trace ++ _))
        rw [traceOf_append_miss rid p.1.trace _ hr]
        exact h2 rid

theorem foldl_stepRule_invariant (rs : List Rule) :
    ∀ (p : EState × Bool), MemoMatches p.1 → ChainSep p.1 →
      MemoMatches (List.foldl stepRule p rs).1 ∧ ChainSep (List.foldl stepRule p rs).1 := by
  induction rs with
  | nil => intro p h1 h2; exact ⟨h1, h2⟩
  | cons r rs ih =>
    intro p h1 h2
    have h3 := stepRule_invariant p r h1 h2
    exact ih (stepRule p r) h3.1 h3.2

theorem fcLoop_invariant (kb : KB) :
    ∀ (n : ℕ) (st : EState), MemoMatches st → ChainSep st →
      ∀ st2, fcLoop kb n st = some st2 → MemoMatches st2 ∧ ChainSep st2 := by
  intro n
  induction n with
  | zero =>
    intro st _ _ st2 h
    cases h
  | succ n ih =>
    intro st h1 h2 st2 h
    have hp := foldl_stepRule_invariant kb.rules (st, false) h1 h2
    have hdef : fcLoop kb (n + 1) st
        = if (fcPass kb st).2 = true then fcLoop kb n (fcPass kb st).1
          else some (fcPass kb st).1 := rfl
    rw [hdef] at h
    by_cases hb : (fcPass kb st).2 = true
    · rw [if_pos hb] at h
      exact ih (fcPass kb st).1 hp.1 hp.2 st2 h
    · rw [if_neg hb] at h
      have := Option.some.inj h
      rw [← this]
      exact hp

theorem initState_invariants (kb : KB) (input : List (String × ConfVal)) :
    MemoMatches (initState kb input) ∧ ChainSep (initState kb input) := by
  constructor
  · intro rid
    rfl
  · intro rid
    trivial

/-- C4: (a) when a rule's memoised antecedent CF differs from its current
antecedent CF by less than 1e-9, the rule is skipped and the pass state is
left untouched; (b) in any completed run, consecutive trace entries of one
rule id carry antecedent CFs at least 1e-9 apart; hence (c) a rule id whose
antecedent CF is identical at all its firings contributes at most one trace
entry, even though it stays eligible in every pass. -/
theorem antecedent_unchanged_rule_skipped :
    (∀ (p : EState × Bool) (r : Rule) (c : ℚ) (cs : List ℚ) (prev : ℚ),
        getAntCfs p.1.facts r.ants = some (c :: cs) →
        lookupF p.1.memo r.id = some prev →
        |prev - listMin c cs| < (1 : ℚ)/1000000000 →
        stepRule p r = p) ∧
    (∀ (kb : KB) (input : List (String × ConfVal)) (fuel : ℕ) (st : EState),
        fcLoop kb fuel (initState kb input) = some st →
        ∀ rid : String,
          List.Chain'
            (fun t1 t2 => (1 : ℚ)/1000000000 ≤ |t1.cf_antecedent - t2.cf_antecedent|)
            (traceOf rid st.trace) ∧
          ∀ cval : ℚ, (∀ t ∈ traceOf rid st.trace, t.cf_antecedent = cval) →
            (traceOf rid st.trace).length ≤ 1) := by
  constructor
  · intro p r c cs prev hga hm hlt
    have hc : stepCore p.1.facts p.1.memo r = ⟨p.1.facts, p.1.memo, [], false⟩ := by
      simp only [stepCore, hga, hm]
      rw [if_pos hlt]
    simp [stepRule, hc]
  · intro kb input fuel st h rid
    have hinv := fcLoop_invariant kb fuel (initState kb input)
      (initState_invariants kb input).1 (initState_invariants kb input).2 st h
    refine ⟨hinv.2 rid, ?_⟩
    intro cval hconst
    rcases hl : traceOf rid st.trace with _ | ⟨t1, tl⟩
    · simp
    · rcases tl with _ | ⟨t2, tl2⟩
      · simp
      · exfalso
        have hch := hinv.2 rid
        rw [hl] at hch
        have hR := (List.chain'_cons.mp hch).1
        have e1 : t1.cf_antecedent = cval :=
          hconst t1 (by rw [hl]; exact List.mem_cons_self _ _)
        have e2 : t2.cf_antecedent = cval :=
          hconst t2 (by rw [hl]; exact List.mem_cons_of_mem _ (List.mem_cons_self _ _))
        rw [e1, e2, sub_self, abs_zero] at hR
        norm_num at hR

/-- C4 witness: the guard equation on a concrete state, and the completed
reference run on `kbG` whose single `R1` entry has constant antecedent CF. -/
theorem antecedent_unchanged_rule_skipped_witness :
    stepRule (⟨[("G", 1)], [("R1", 1)], []⟩, false) ⟨"R1", ["G"], "D", 1, ""⟩
      = (⟨[("G", 1)], [("R1", 1)], []⟩, false) ∧
    (traceOf ("R1") [⟨"R1", ["G02"], [1], 1, 4/5, 4/5, "D1", 0, 4/5, ""⟩]).length ≤ 1 := by
  constructor
  · exact antecedent_unchanged_rule_skipped.1 (⟨[("G", 1)], [("R1", 1)], []⟩, false)
      ⟨"R1", ["G"], "D", 1, ""⟩ 1 [] 1 (by decide) (by decide) (by decide)
  · exact (antecedent_unchanged_rule_skipped.2 kbG [("G02", ConfVal.num 1)] 2
      ⟨[("G02", 1), ("D1", 4/5)], [("R1", 1)],
       [⟨"R1", ["G02"], [1], 1, 4/5, 4/5, "D1", 0, 4/5, ""⟩]⟩
      (by decide) ("R1")).2 1 (by decide)

/-- Run invariant of app.py: trace rule ids are distinct, and the conclusion of
every rule whose id already appears in the trace is present in the fact store. -/
def AppInv (allRules : List Rule) (f : FDict) (tr : List ExpertSystem.ATrace) : Prop :=
  (tr.map (fun t => t.rule_id)).Nodup ∧
  ∀ t ∈ tr, ∀ r ∈ allRules, r.id = t.rule_id → (lookupF f r.concl).isSome = true

theorem nodup_concat_strings (l : List String) (a : String)
    (h1 : l.Nodup) (h2 : ¬a ∈ l) : (l ++ [a]).Nodup := by
  simp [List.nodup_append, h1, h2]

theorem runRules_invariant (allRules : List Rule)
    (hnd : (allRules.map (fun r => r.id)).Nodup) :
    ∀ (rs : List Rule), (∀ r ∈ rs, r ∈ allRules) →
    ∀ (f : FDict) (tr : List ExpertSystem.ATrace) (ch : Bool)
      (f2 : FDict) (tr2 : List ExpertSystem.ATrace) (ch2 : Bool),
      ExpertSystem.runRules rs f tr ch = some (f2, tr2, ch2) →
      AppInv allRules f tr →
      AppInv allRules f2 tr2 ∧
        (∀ k, (lookupF f k).isSome = true → (lookupF f2 k).isSome = true) := by
  intro rs
  induction rs with
  | nil =>
    intro _ f tr ch f2 tr2 ch2 h hinv
    simp only [ExpertSystem.runRules, Option.some.injEq, Prod.mk.injEq] at h
    obtain ⟨h1, h2, _⟩ := h
    rw [← h1, ← h2]
    exact ⟨hinv, fun k hk => hk⟩
  | cons r rs ih =>
    intro hsub f tr ch f2 tr2 ch2 h hinv
    have hrmem : r ∈ allRules := hsub r (List.mem_cons_self _ _)
    have hsub2 : ∀ x ∈ rs, x ∈ allRules := fun x hx => hsub x (List.mem_cons_of_mem _ hx)
    simp only [ExpertSystem.runRules] at h
    by_cases hskip : (lookupF f r.concl).isSome = true ∧ r.id ∈ tr.map (fun t => t.rule_id)
    · rw [if_pos hskip] at h
      exact ih hsub2 f tr ch f2 tr2 ch2 h hinv
    · rw [if_neg hskip] at h
      by_cases hall : r.ants.all (fun a => (lookupF f a).isSome) = true
      · rw [if_pos hall] at h
        rcases hmin : ExpertSystem.listMin? (r.ants.map (fun a => (lookupF f a).getD 0))
          with _ | mcf
        · simp only [hmin] at h
          exact Option.noConfusion h
        · simp only [hmin] at h
          rcases hcomb : (if (lookupF f r.concl).isSome then
                ExpertSystem.combine_cf ((lookupF f r.concl).getD 0) (r.cf * mcf)
              else some (r.cf * mcf)) with _ | newv
          · simp only [hcomb] at h
            exact Option.noConfusion h
          · simp only [hcomb] at h
            by_cases hth : (1 : ℚ)/1000000 < |newv - (lookupF f r.concl).getD 0|
            · rw [if_pos hth] at h
              have hnotin : ¬r.id ∈ tr.map (fun t => t.rule_id) := by
                intro hin
                obtain ⟨t, htmem, hteq⟩ := List.mem_map.mp hin
                have hsome := hinv.2 t htmem r hrmem hteq.symm
                exact hskip ⟨hsome, hin⟩
              have hinv2 : AppInv allRules (insertF f r.concl newv)
                  (tr ++ [⟨r.id, r.ants, r.concl, r.ants.map (fun a => (lookupF f a).getD 0),
                           r.cf, (lookupF f r.concl).getD 0, newv, r.note⟩]) := by
                constructor
                · rw [List.map_append]
                  exact nodup_concat_strings _ _ hinv.1 hnotin
                · intro t htmem r2 hr2 hid
                  rcases List.mem_append.mp htmem with hold | hnew
                  · exact isSome_lookupF_insertF _ _ _ _ (hinv.2 t hold r2 hr2 hid)
                  · simp only [List.mem_singleton] at hnew
                    subst hnew
                    have hid2 : r2.id = r.id := hid
                    have hr2r : r2 = r :=
                      List.inj_on_of_nodup_map hnd hr2 hrmem hid2
                    rw [hr2r, lookupF_insertF_self]
                    rfl
              have hres := ih hsub2 _ _ _ f2 tr2 ch2 h hinv2
              exact ⟨hres.1, fun k hk => hres.2 k (isSome_lookupF_insertF _ _ _ _ hk)⟩
            · rw [if_neg hth] at h
              exact ih hsub2 f tr ch f2 tr2 ch2 h hinv
      · rw [if_neg hall] at h
        exact ih hsub2 f tr ch f2 tr2 ch2 h hinv

theorem appLoop_invariant (kb : KB) (hnd : (kb.rules.map (fun r => r.id)).Nodup) :
    ∀ (n : ℕ) (f : FDict) (tr : List ExpertSystem.ATrace),
      AppInv kb.rules f tr →
      ∀ f2 tr2, ExpertSystem.loopFC kb n f tr = some (f2, tr2) →
      AppInv kb.rules f2 tr2 := by
  intro n
  induction n with
  | zero =>
    intro f tr _ f2 tr2 h
    cases h
  | succ n ih =>
    intro f tr hinv f2 tr2 h
    rcases hrun : ExpertSystem.runRules kb.rules f tr false with _ | res
    · simp only [ExpertSystem.loopFC, hrun] at h
      exact Option.noConfusion h
    · obtain ⟨fa, tra, cha⟩ := res
      have hres := runRules_invariant kb.rules hnd kb.rules (fun _ hx => hx)
        f tr false fa tra cha hrun hinv
      simp only [ExpertSystem.loopFC, hrun] at h
      by_cases hb : cha = true
      · rw [if_pos hb] at h
        exact ih fa tra hres.1 f2 tr2 h
      · rw [if_neg hb] at h
        have h2 : (fa, tra) = (f2, tr2) := Option.some.inj h
        obtain ⟨h3, h4⟩ := Prod.mk.injEq _ _ _ _ ▸ h2
        rw [← h3, ← h4]
        exact hres.1

/-- C9: in app.py's `ExpertSystem.forward_chaining`, a rule whose conclusion is
already in the fact store and whose id appears in the trace is skipped in
every pass regardless of its antecedent CFs — and once a rule has fired both
conditions hold forever; with the data model's unique rule ids, every rule
fires at most once per run, so the trace holds at most one entry per rule id. -/
theorem app_rule_fires_at_most_once :
    (∀ (r : Rule) (rs : List Rule) (f : FDict) (tr : List ExpertSystem.ATrace) (ch : Bool),
        (lookupF f r.concl).isSome = true → r.id ∈ tr.map (fun t => t.rule_id) →
        ExpertSystem.runRules (r :: rs) f tr ch = ExpertSystem.runRules rs f tr ch) ∧
    (∀ (kb : KB) (facts : List (String × ℚ)) (fuel : ℕ) (f2 : FDict)
        (tr2 : List ExpertSystem.ATrace),
        (kb.rules.map (fun r => r.id)).Nodup →
        ExpertSystem.forward_chaining kb facts fuel = some (f2, tr2) →
        (tr2.map (fun t => t.rule_id)).Nodup) := by
  constructor
  · intro r rs f tr ch h1 h2
    simp only [ExpertSystem.runRules]
    rw [if_pos ⟨h1, h2⟩]
  · intro kb facts fuel f2 tr2 hnd h
    have hinit : AppInv kb.rules (ExpertSystem.appSeed kb facts) [] :=
      ⟨List.nodup_nil, by simp⟩
    exact (appLoop_invariant kb hnd fuel _ [] hinit f2 tr2 h).1

/-- C9 witness: the skip equation on a concrete state, and the one-rule app.py
run on `kbG` whose trace has distinct rule ids. -/
theorem app_rule_fires_at_most_once_witness :
    ExpertSystem.runRules [⟨"R1", ["G"], "D", 1, ""⟩] [("D", 1)]
        [⟨"R1", ["G"], "D", [1], 1, 0, 1, ""⟩] false
      = ExpertSystem.runRules [] [("D", 1)] [⟨"R1", ["G"], "D", [1], 1, 0, 1, ""⟩] false ∧
    (([⟨"R1", ["G02"], "D1", [1], 4/5, 0, 4/5, ""⟩] : List ExpertSystem.ATrace).map
      (fun t => t.rule_id)).Nodup := by
  constructor
  · exact app_rule_fires_at_most_once.1 ⟨"R1", ["G"], "D", 1, ""⟩ [] [("D", 1)]
      [⟨"R1", ["G"], "D", [1], 1, 0, 1, ""⟩] false (by decide) (by decide)
  · exact app_rule_fires_at_most_once.2 kbG [("G02", 1)] 2
      [("G02", 1), ("D1", 4/5)] [⟨"R1", ["G02"], "D1", [1], 4/5, 0, 4/5, ""⟩]
      (by decide) (by decide)

/-- app.py's seeding loop applied to raw request values: `calculate_cf` has no
try/except, and multiplying a non-convertible value by the float `mb - md`
raises TypeError, aborting the run at the first such entry (`none`). -/
def appSeedRaw (kb : KB) : List (String × ConfVal) → FDict → Option FDict
  | [], acc => some acc
  | (code, ConfVal.num q) :: rest, acc =>
    appSeedRaw kb rest (insertF acc code (ExpertSystem.calculate_cf kb q code))
  | (_, ConfVal.nonNum _) :: _, _ => none

/-- app.py `ExpertSystem.forward_chaining` reached with raw confidence values:
the seeding loop itself may raise (the 1.0 recovery lives only in the /infer
route's form parsing, outside this method). -/
def appForwardChainingRaw (kb : KB) (facts : List (String × ConfVal)) (fuel : ℕ) :
    Option (FDict × List ExpertSystem.ATrace) :=
  match appSeedRaw kb facts [] with
  | none => none
  | some f => ExpertSystem.loopFC kb fuel f []

/-- C3 counterexample: app.py's `ExpertSystem.forward_chaining`, also cited by
the claim, performs no finalization — it returns raw `cf_facts`: a raw input
confidence 2.0 comes back as 2.0 (outside `[-1, 1]`), and 1/3 comes back
unrounded (not a 4-decimal fixed point). -/
theorem app_final_facts_not_clamped_cex :
    ExpertSystem.forward_chaining ⟨[], []⟩ [("A", 2)] 1 = some ([("A", 2)], []) ∧
    ¬((2 : ℚ) ≤ 1) ∧
    ExpertSystem.forward_chaining ⟨[], []⟩ [("B", 1/3)] 1 = some ([("B", 1/3)], []) ∧
    ¬(round4 (1/3) = 1/3) := by
  decide

/-- C7 counterexample: app.py's seeding loop, also cited by the claim, has no
try/except — a non-convertible confidence value raises TypeError inside
`calculate_cf` and the exception propagates out of the run, while engine.py
silently substitutes 1.0 for the same input. -/
theorem app_nonnumeric_confidence_raises :
    appForwardChainingRaw ⟨[], []⟩ [("A", ConfVal.nonNum "x")] 1 = none ∧
    forward_chaining ⟨[], []⟩ [("A", ConfVal.nonNum "x")] 1 = some ([("A", 1)], []) := by
  decide
